import Mathlib

/-!
Verification of the mzlib view/container family.

A shallow embedding, in Lean 4, of the parts of the mzlib C++ library that the
specification's claims are about:

* the elementwise compound-assignment operators of
  `ElementwiseMutableOperationsInterface` (ElementwiseOperationsInterface.h);
* the strided view `Slice` (Slice.h) and the contiguous view `Span`
  (the Span header), including `head`/`tail`, the checked and unchecked
  queue operations, `count_filter_front` / `pop_front_filter`,
  `lower_bound` / `find`, and the assignment fast path;
* the pointer stack `Stack` (Stack.h);
* the `read_label` / `write_label` pair of the serialization `Stream`.

Machine conventions of the source that the embedding keeps: `size_type` is a
signed `int` (the `MZ_SIGNED_SIZE` branch of the size-type header), so sizes,
counts and steps are modelled as `Int`; element values are modelled as `Int`
(the claims are about integer element types); memory holding array elements is
modelled at element granularity as a total map `Int → Int` from addresses to
values, and a view is a `(address, size (, step))` record into such a memory.
The three error-raising macro families of the error-utils header
(`DOMAIN_ERROR_IF`, `INVALID_ARGUMENT_IF`, `LOGIC_ERROR_IF` / `THROW_IF`)
become the three constructors of `MzError`.
-/

namespace Mzlib

/-- The three error kinds raised by the checking macros of the error-utils
header: `DOMAIN_ERROR_IF` throws `std::domain_error`, `INVALID_ARGUMENT_IF`
throws `std::invalid_argument`, and `LOGIC_ERROR_IF` / `THROW_IF` (the
general invalid-state checks) throw `std::logic_error`. -/
inductive MzError where
  | domainError
  | invalidArgument
  | logicError
deriving DecidableEq, Repr

/-- Memory made from a list: address `a` holds the `a`-th list element
(addresses outside the list hold 0).  Used to build concrete scenarios. -/
def memOfList (l : List Int) : Int → Int :=
  fun a => if 0 ≤ a then l.getD a.toNat 0 else 0

/-- Pointwise store: `memUpd mem a v` is `mem` with address `a` holding `v`. -/
def memUpd (mem : Int → Int) (a v : Int) : Int → Int :=
  fun x => if x = a then v else mem x

/-! ## C1: `ElementwiseMutableOperationsInterface::operator+=(Seq)`

The operator body is
`DOMAIN_ERROR_IF(size() != seq.size(), ...); for (i = 0; i < size(); ++i) at(i) += seq[i];`.
Both containers are modelled as lists of their elements (`at(i)` is `L[i]`,
`seq[i]` is `R[i]`); the loop is `addAssignLoop` and the whole operator is
`plusAssignSeq`, which returns the raised error (if any) together with the
final contents of the receiver. -/

/-- The ascending loop `for (i = 0; i < size(); ++i) at(i) += seq[i]` of
`operator+=(Seq)`, started at index `i`. -/
def addAssignLoop (L R : List Int) (i : Nat) : List Int :=
  if i < L.length then
    addAssignLoop (L.set i (L.getD i 0 + R.getD i 0)) R (i + 1)
  else L
termination_by L.length - i
decreasing_by simp [List.length_set]; omega

/-- `ElementwiseMutableOperationsInterface::operator+=(Seq)`: the size check
(`DOMAIN_ERROR_IF`) runs before the loop, so on a size mismatch the receiver
is returned untouched together with the domain error. -/
def plusAssignSeq (L R : List Int) : Option MzError × List Int :=
  if L.length ≠ R.length then (some .domainError, L)
  else (none, addAssignLoop L R 0)

/-! ## C2: `Slice<Ty>::operator[]`

`Slice` stores `m_data` (address of element 0), `m_size` and `m_step`
(both of signed type `size_type`); `operator[](index)` is
`m_data[index * m_step]`, i.e. the element at address
`m_data + index * m_step`. -/

/-- The data members of `Slice<Ty>`: data pointer (as an address), size and
step, the latter two of signed `size_type`. -/
structure Slice where
  m_data : Int
  m_size : Int
  m_step : Int
deriving DecidableEq, Repr

/-- `Slice<Ty>::operator[]` (read): `return m_data[index * m_step];`. -/
def Slice.get (mem : Int → Int) (s : Slice) (index : Int) : Int :=
  mem (s.m_data + index * s.m_step)

/-- `Slice<Ty>::operator[]` (write through the returned reference): storing
`v` at logical index `index` stores to address `m_data + index * m_step`. -/
def Slice.put (mem : Int → Int) (s : Slice) (index v : Int) : Int → Int :=
  memUpd mem (s.m_data + index * s.m_step) v

/-- The logical sequence a `Slice` denotes: its elements in index order. -/
def Slice.toList (mem : Int → Int) (s : Slice) : List Int :=
  (List.range s.m_size.toNat).map (fun i => Slice.get mem s (Int.ofNat i))

/-! ## The contiguous view `Span`

`Span<ElementT>` stores `data_` (modelled as an address into a memory
`Int → Int`) and `size_` of signed `size_type`.  `trim_length` clamps a
requested length into `[0, size_]`; `head`/`tail` build sub-views with it;
the checked queue operations raise `DOMAIN_ERROR_IF` (a `std::domain_error`)
and then delegate to the `unsafe_` variants, which perform no check. -/

/-- The data members of `Span<ElementT>`: data pointer (as an address) and
signed size. -/
structure Span where
  data_ : Int
  size_ : Int
deriving DecidableEq, Repr

/-- `Span::operator[]` (unchecked): `data_[Index]`. -/
def Span.get (mem : Int → Int) (s : Span) (index : Int) : Int :=
  mem (s.data_ + index)

/-- The logical sequence a `Span` denotes: its elements in index order. -/
def Span.toList (mem : Int → Int) (s : Span) : List Int :=
  (List.range s.size_.toNat).map (fun i => Span.get mem s (Int.ofNat i))

/-- `Span::trim_length(Length)`:
`return Length < 0 ? 0 : (Length < size_ ? Length : size_);`. -/
def Span.trim_length (s : Span) (Length : Int) : Int :=
  if Length < 0 then 0 else if Length < s.size_ then Length else s.size_

/-- `Span::head(length)`: `return Span(data_, trim_length(length));`. -/
def Span.head (s : Span) (length : Int) : Span :=
  ⟨s.data_, s.trim_length length⟩

/-- `Span::tail(length)`:
`length = trim_length(length); return Span(data_ + size_ - length, length);`. -/
def Span.tail (s : Span) (length : Int) : Span :=
  let l := s.trim_length length
  ⟨s.data_ + s.size_ - l, l⟩

/-- `Span::unsafe_front()`: `return data_[0];` (no check). -/
def Span.unsafe_front (mem : Int → Int) (s : Span) : Int := mem (s.data_ + 0)

/-- `Span::unsafe_back()`: `return data_[size_ - 1];` (no check). -/
def Span.unsafe_back (mem : Int → Int) (s : Span) : Int := mem (s.data_ + (s.size_ - 1))

/-- `Span::unsafe_pop_front(Count)`:
`size_ -= Count; data_ += Count; return Span{data_ - Count, Count};` —
the pair is (view after the call, returned sub-view). -/
def Span.unsafe_pop_front (s : Span) (Count : Int) : Span × Span :=
  (⟨s.data_ + Count, s.size_ - Count⟩, ⟨s.data_, Count⟩)

/-- `Span::unsafe_pop_back(Count)`:
`size_ -= Count; return Span{data_ + size_, Count};`. -/
def Span.unsafe_pop_back (s : Span) (Count : Int) : Span × Span :=
  (⟨s.data_, s.size_ - Count⟩, ⟨s.data_ + (s.size_ - Count), Count⟩)

/-- `Span::front()`: `DOMAIN_ERROR_IF(size_ <= 0, ...); return unsafe_front();`. -/
def Span.front (mem : Int → Int) (s : Span) : Except MzError Int :=
  if s.size_ ≤ 0 then .error .domainError else .ok (s.unsafe_front mem)

/-- `Span::back()`: `DOMAIN_ERROR_IF(size_ <= 0, ...); return unsafe_back();`. -/
def Span.back (mem : Int → Int) (s : Span) : Except MzError Int :=
  if s.size_ ≤ 0 then .error .domainError else .ok (s.unsafe_back mem)

/-- `Span::pop_front(Count)`:
`DOMAIN_ERROR_IF(size_ < Count, ...); return unsafe_pop_front(Count);`. -/
def Span.pop_front (s : Span) (Count : Int) : Except MzError (Span × Span) :=
  if s.size_ < Count then .error .domainError else .ok (s.unsafe_pop_front Count)

/-- `Span::pop_back(Count)`:
`DOMAIN_ERROR_IF(size_ < Count, ...); return unsafe_pop_back(Count);`. -/
def Span.pop_back (s : Span) (Count : Int) : Except MzError (Span × Span) :=
  if s.size_ < Count then .error .domainError else .ok (s.unsafe_pop_back Count)

/-! ### `count_filter_front` and `pop_front_filter`

`Span::count_filter_front(F, StepSize)` clamps the step
(`Step = Step > 1 ? Step : 1; Step = Step < size() ? Step : size();`), probes
forward by `Step` while the predicate holds
(`while (Ptr < End && F(*Ptr)) Ptr += Step;`), then
`if (Ptr < End) { End = Ptr++; } Ptr -= Step; if (Ptr < begin()) Ptr = begin();`
and re-scans by 1 (`while (Ptr < End && F(*Ptr)) ++Ptr;`), returning
`Ptr - begin()`.  Pointers are modelled as offsets from `begin()`. -/

/-- The phase-1 probe loop `while (Ptr < End && F(*Ptr)) { Ptr += Step; }`.
The extra conjunct `0 < step` only serves termination: at the call site the
clamped step is positive whenever the loop guard can hold (`step` is clamped
to `size()`, and `p < e` requires a positive size). -/
def scanStep (mem : Int → Int) (F : Int → Bool) (base e step : Int) (p : Int) : Int :=
  if h : (p < e ∧ F (mem (base + p))) ∧ 0 < step then
    scanStep mem F base e step (p + step)
  else p
termination_by (e - p).toNat
decreasing_by omega

/-- The phase-2 confirm loop `while (Ptr < End && F(*Ptr)) { ++Ptr; }`. -/
def scanOne (mem : Int → Int) (F : Int → Bool) (base e : Int) (p : Int) : Int :=
  if p < e ∧ F (mem (base + p)) then scanOne mem F base e (p + 1) else p
termination_by (e - p).toNat
decreasing_by omega

/-- The step clamp of `count_filter_front`:
`Step = Step > 1 ? Step : 1; Step = Step < size() ? Step : size();`. -/
def clampStep (StepSize n : Int) : Int :=
  let step0 := if 1 < StepSize then StepSize else 1
  if step0 < n then step0 else n

/-- `Span::count_filter_front(F, StepSize)` (pointers as offsets from
`begin()`; `pe` is the pair `(Ptr, End)` after `if (Ptr < End) End = Ptr++;`). -/
def Span.count_filter_front (mem : Int → Int) (s : Span) (F : Int → Bool)
    (StepSize : Int) : Int :=
  let step := clampStep StepSize s.size_
  let p0 := scanStep mem F s.data_ s.size_ step 0
  let pe := if p0 < s.size_ then (p0 + 1, p0) else (p0, s.size_)
  let p1 := pe.1 - step
  let p2 := if p1 < 0 then 0 else p1
  scanOne mem F s.data_ pe.2 p2

/-- `Span::pop_front_filter(pred, step_size)`:
`return unsafe_pop_front(count_filter_front(pred, step_size));`. -/
def Span.pop_front_filter (mem : Int → Int) (s : Span) (F : Int → Bool)
    (step_size : Int) : Span × Span :=
  s.unsafe_pop_front (Span.count_filter_front mem s F step_size)

/-! ### The two paths of `Span::operator=(Span)`

`Span& operator=(Span rhs)` checks
`DOMAIN_ERROR_IF(size() != rhs.size(), ...)` and then either performs
`memcpy(begin(), rhs.begin(), sizeof(value_type) * size())` (when
`value_type` is trivially copyable) or the generic loop
`for (i = 0; i < size(); i++) { operator[](i) = rhs[i]; }`.  `memcpy`
requires the two ranges not to overlap, so the equivalence of the two paths
is proved under that precondition. -/

/-- The effect of `memcpy(dst, src, n * sizeof(value_type))` at element
granularity (ranges must not overlap): every destination slot receives the
value the corresponding source slot held before the call. -/
def memBulkCopy (mem : Int → Int) (dst src : Int) (n : Nat) : Int → Int :=
  fun a => if dst ≤ a ∧ a < dst + n then mem (src + (a - dst)) else mem a

/-- The generic element-by-element loop
`for (i = 0; i < n; i++) { dst[i] = src[i]; }`, writing in ascending order,
each read seeing the stores already performed. -/
def copyLoop (mem : Int → Int) (dst src : Int) : Nat → (Int → Int)
  | 0 => mem
  | n + 1 => memUpd (copyLoop mem dst src n) (dst + n) (copyLoop mem dst src n (src + n))

/-- `Span::operator=(Span rhs)`, trivially-copyable fast path: size check,
then `memcpy`.  Returns the raised error (if any) and the final memory. -/
def spanAssignBulk (mem : Int → Int) (L R : Span) : Option MzError × (Int → Int) :=
  if L.size_ ≠ R.size_ then (some .domainError, mem)
  else (none, memBulkCopy mem L.data_ R.data_ L.size_.toNat)

/-- `Span::operator=(Span rhs)`, generic path: size check, then the
element-by-element loop (the path taken for non-trivially-copyable element
types, and by `Slice::operator=` for strided operands). -/
def spanAssignLoop (mem : Int → Int) (L R : Span) : Option MzError × (Int → Int) :=
  if L.size_ ≠ R.size_ then (some .domainError, mem)
  else (none, copyLoop mem L.data_ R.data_ L.size_.toNat)

/-! ### `Span::lower_bound` and `Span::find`

`lower_bound(CR)` is `std::lower_bound(data_, data_ + size_, CR)`.
`std::lower_bound` is standard-library code, not repository code; it is
modelled by its standard contract — the first position in the range whose
element is not `< value` (on a sorted range the binary search returns
exactly this position) — written as the equivalent front-to-back scan. -/

/-- The contract of `std::lower_bound` over offsets `[p, e)`: the first
offset whose element is not less than `v`. -/
def lbScan (mem : Int → Int) (v base e : Int) (p : Int) : Int :=
  if p < e ∧ mem (base + p) < v then lbScan mem v base e (p + 1) else p
termination_by (e - p).toNat
decreasing_by omega

/-- `Span::lower_bound(CR)` as an offset from `data_`. -/
def Span.lower_bound (mem : Int → Int) (s : Span) (v : Int) : Int :=
  lbScan mem v s.data_ s.size_ 0

/-- `Span::find(CR)`:
`auto ptr = lower_bound(CR); if (ptr != data_ + size_ && CR == ptr[0]) return ptr - data_; return -1;`
(`size_type` is signed, so `-1` is an actual negative sentinel). -/
def Span.find (mem : Int → Int) (s : Span) (v : Int) : Int :=
  let idx := Span.lower_bound mem s v
  if idx ≠ s.size_ ∧ v = mem (s.data_ + idx) then idx else -1

/-! ## The serialization stream: `write_label` / `read_label`

`Stream::write` emits the bytes of a trivially-copyable value at the put
position (modelled as the end of the stream); `Stream::read` consumes the
same number of bytes at the get position.  A `uint64_t` occupies 8 bytes
(little-endian).  `write_label(encoding)` is
`if (encoding) { write(encoding); }` and `read_label(encoding)` is
`uint64_t x{ encoding - 1 }; if (encoding) { read(x); return x != encoding; } return false;`. -/

/-- Little-endian byte image of the low `k` bytes of `w` (the byte sequence
`write` emits for a `uint64_t` when `k = 8`). -/
def toLEBytes : Nat → Nat → List Nat
  | 0, _ => []
  | k + 1, w => (w % 256) :: toLEBytes k (w / 256)

/-- Value of a little-endian byte sequence (what `read` reassembles). -/
def fromLEBytes : List Nat → Nat
  | [] => 0
  | b :: bs => b + 256 * fromLEBytes bs

/-- A stream: its byte contents and the current get position. -/
structure Stream where
  data : List Nat
  pos : Nat
deriving DecidableEq, Repr

/-- `Stream::write_label(encoding)`: for a nonzero tag, append the 8-byte
image of the `uint64_t` at the put position (the end of the stream); tag 0
writes nothing. -/
def Stream.write_label (data : List Nat) (encoding : Nat) : List Nat :=
  if encoding ≠ 0 then data ++ toLEBytes 8 encoding else data

/-- `Stream::read_label(encoding)`: for a nonzero tag, read 8 bytes at the
get position into `x` and report the mismatch `x != encoding`; tag 0 reads
nothing and reports no mismatch. -/
def Stream.read_label (s : Stream) (encoding : Nat) : Bool × Stream :=
  if encoding ≠ 0 then
    let x := fromLEBytes ((s.data.drop s.pos).take 8)
    (x != encoding, ⟨s.data, s.pos + 8⟩)
  else (false, s)

/-! ## The pointer stack `Stack<T>`

`Stack<T>` stores `m_data` (a `T**`, null until allocated), `m_size` and
`m_cap`.  A slot holds either a non-null `T*` (modelled `some a` for an
address `a`) or `nullptr` (modelled `none`); the whole slot array is
`Option (List (Option Nat))`, `none` standing for a null `m_data`.  `new
pointer[c]` returns `c` uninitialized slots, so the constructors and
`resize_in_place` take the junk contents of the fresh allocation as a
parameter. -/

/-- The data members of `Stack<T>`. -/
structure Stack where
  m_data : Option (List (Option Nat))
  m_size : Nat
  m_cap : Nat
deriving DecidableEq, Repr

/-- The slot array (empty when `m_data` is null). -/
def stackSlots (s : Stack) : List (Option Nat) := s.m_data.getD []

/-- `Stack()`: `m_data{nullptr}, m_size{0}, m_cap{0}`. -/
def Stack.mkEmpty : Stack := ⟨none, 0, 0⟩

/-- `Stack(capacity)`: `m_data{new pointer[capacity]}, m_size{0},
m_cap{capacity}` — `junk` is the uninitialized contents of the fresh
allocation (reachability constrains it to have length `capacity`). -/
def Stack.mkCap (capacity : Nat) (junk : List (Option Nat)) : Stack :=
  ⟨some junk, 0, capacity⟩

/-- `Stack::resize_in_place()`: allocate `m_cap * 2 + 2` slots, `memcpy` the
first `m_size` pointers across, swap — `junk` is the uninitialized tail of
the fresh allocation. -/
def Stack.resize_in_place (s : Stack) (junk : List (Option Nat)) : Stack :=
  ⟨some ((stackSlots s).take s.m_size ++ junk), s.m_size, s.m_cap * 2 + 2⟩

/-- `Stack::push(reference elem)`:
`if (m_size == m_cap) resize_in_place(); pos = m_size++; m_data[pos] = &elem;`
(the address of a reference is never null). -/
def Stack.push (s : Stack) (a : Nat) (junk : List (Option Nat)) : Stack :=
  let s1 := if s.m_size = s.m_cap then s.resize_in_place junk else s
  ⟨some ((stackSlots s1).set s1.m_size (some a)), s1.m_size + 1, s1.m_cap⟩

/-- The loop of `Stack::pop()`:
`while (m_size > 0) { --m_size; res = m_data[m_size]; m_data[m_size] = nullptr; if (res) return res; }`
returning (final slots, final `m_size`, result). -/
def popLoop (data : List (Option Nat)) (size : Nat) :
    List (Option Nat) × Nat × Option Nat :=
  match size with
  | 0 => (data, 0, none)
  | n + 1 =>
      let res := data.getD n none
      let data1 := data.set n none
      if res.isSome then (data1, n, res) else popLoop data1 n

/-- `Stack::pop()`: run the loop, keep capacity. -/
def Stack.pop (s : Stack) : Stack × Option Nat :=
  let r := popLoop (stackSlots s) s.m_size
  (⟨s.m_data.map (fun _ => r.1), r.2.1, s.m_cap⟩, r.2.2)

/-- `Stack::pop(index)`:
`if (index >= 0 && size_type(index) < m_size) { elem = m_data[index]; m_data[index] = nullptr; }`
(size unchanged). -/
def Stack.popAt (s : Stack) (index : Nat) : Stack × Option Nat :=
  if index < s.m_size then
    (⟨s.m_data.map (fun l => l.set index none), s.m_size, s.m_cap⟩,
      (stackSlots s).getD index none)
  else (s, none)

/-- `Stack::clear()`: `memset(m_data, 0, sizeof(pointer) * m_size); m_size = 0;`. -/
def Stack.clear (s : Stack) : Stack :=
  ⟨s.m_data.map (fun l => List.replicate s.m_size (none : Option Nat) ++ l.drop s.m_size),
    0, s.m_cap⟩

/-- Pointer comparison used by `std::sort` on `T*` slots: `nullptr` (0)
precedes every object address. -/
def ptrVal : Option Nat → Nat
  | none => 0
  | some a => a + 1

/-- `Stack::sort()`: `std::sort(m_data, m_data + m_size)` by pointer value
(slots past `m_size` untouched). -/
def Stack.sort (s : Stack) : Stack :=
  ⟨s.m_data.map (fun l =>
      ((l.take s.m_size).mergeSort (fun x y => ptrVal x ≤ ptrVal y)) ++ l.drop s.m_size),
    s.m_size, s.m_cap⟩

/-- `std::unique(m_data, m_data + m_size)`: keep the first element of every
run of consecutive equal slots. -/
def uniqueConsec : List (Option Nat) → List (Option Nat)
  | [] => []
  | [a] => [a]
  | a :: b :: t => if a = b then uniqueConsec (a :: t) else a :: uniqueConsec (b :: t)

/-- `Stack::unique()`: `std::unique` over the first `m_size` slots, null out
the slots between the returned end and `m_data + m_size`, shrink `m_size`. -/
def Stack.unique (s : Stack) : Stack :=
  let kept := uniqueConsec ((stackSlots s).take s.m_size)
  ⟨s.m_data.map (fun l =>
      kept ++ List.replicate (s.m_size - kept.length) (none : Option Nat) ++ l.drop s.m_size),
    kept.length, s.m_cap⟩

/-- The states a `Stack` can reach from the default or capacity constructor
through `push`, `pop`, `pop(index)`, `clear`, `sort` and `unique`.  The junk
arguments carry the sizes `new pointer[...]` actually allocates. -/
inductive StackReachable : Stack → Prop
  | mk_empty : StackReachable Stack.mkEmpty
  | mk_cap (c : Nat) (junk : List (Option Nat)) (hj : junk.length = c) :
      StackReachable (Stack.mkCap c junk)
  | push (s : Stack) (a : Nat) (junk : List (Option Nat)) (h : StackReachable s)
      (hj : junk.length = s.m_cap * 2 + 2 - s.m_size) :
      StackReachable (Stack.push s a junk)
  | pop (s : Stack) (h : StackReachable s) : StackReachable (Stack.pop s).1
  | popAt (s : Stack) (i : Nat) (h : StackReachable s) :
      StackReachable (Stack.popAt s i).1
  | clear (s : Stack) (h : StackReachable s) : StackReachable (Stack.clear s)
  | sort (s : Stack) (h : StackReachable s) : StackReachable (Stack.sort s)
  | unique (s : Stack) (h : StackReachable s) : StackReachable (Stack.unique s)

/-! ### Lemmas about the `operator+=` loop -/

theorem getD_set_eq (l : List Int) (i j : Nat) (a : Int) :
    (l.set i a).getD j 0 = if i = j ∧ i < l.length then a else l.getD j 0 := by
  rw [List.getD_eq_getElem?_getD, List.getD_eq_getElem?_getD, List.getElem?_set]
  split <;> rename_i h
  · subst h
    split <;> rename_i h2
    · simp [h2]
    · rw [List.getElem?_eq_none (by omega)]
      simp [h2]
  · simp [h]

theorem addAssignLoop_length (L R : List Int) (i : Nat) :
    (addAssignLoop L R i).length = L.length := by
  induction L, R, i using addAssignLoop.induct with
  | case1 L R i h ih => rw [addAssignLoop, if_pos h]; simp [List.length_set] at ih ⊢; omega
  | case2 L R i h => rw [addAssignLoop, if_neg h]

theorem addAssignLoop_getD (L R : List Int) (i j : Nat) :
    (addAssignLoop L R i).getD j 0 =
      if i ≤ j ∧ j < L.length then L.getD j 0 + R.getD j 0 else L.getD j 0 := by
  induction L, R, i using addAssignLoop.induct with
  | case1 L R i h ih =>
      rw [addAssignLoop, if_pos h, ih, getD_set_eq]
      simp only [List.length_set]
      by_cases hji : j = i
      · subst hji
        have h1 : ¬(j + 1 ≤ j ∧ j < L.length) := by omega
        rw [if_neg h1, if_pos ⟨rfl, h⟩, if_pos ⟨Nat.le_refl j, h⟩]
      · have h2 : ¬(i = j ∧ i < L.length) := fun hc => hji hc.1.symm
        rw [if_neg h2]
        by_cases h3 : i + 1 ≤ j ∧ j < L.length
        · rw [if_pos h3, if_pos (by omega)]
        · rw [if_neg h3, if_neg (by omega)]
  | case2 L R i h =>
      rw [addAssignLoop, if_neg h, if_neg (by omega)]

/-- Claim C1.  For a mutable conforming container `L` and conforming sequence
`R`, the elementwise `L += R` raises a failure if and only if
`size(L) != size(R)`; when it fails no element of `L` has been modified (the
size check precedes every write); when the sizes are equal it terminates
normally and every `new L[i]` equals `old L[i] + R[i]`. -/
theorem elementwise_plusAssign_spec (L R : List Int) :
    ((plusAssignSeq L R).1.isSome ↔ L.length ≠ R.length)
    ∧ ((plusAssignSeq L R).1.isSome → (plusAssignSeq L R).2 = L)
    ∧ (L.length = R.length →
        (plusAssignSeq L R).1 = none
        ∧ (plusAssignSeq L R).2.length = L.length
        ∧ ∀ i : Nat, i < L.length →
            (plusAssignSeq L R).2.getD i 0 = L.getD i 0 + R.getD i 0) := by
  unfold plusAssignSeq
  by_cases h : L.length ≠ R.length
  · rw [if_pos h]
    exact ⟨by simp [h], fun _ => rfl, fun hc => absurd hc h⟩
  · rw [if_neg h]
    push_neg at h
    refine ⟨by simp [h], by simp, fun _ => ⟨rfl, addAssignLoop_length L R 0, fun i hi => ?_⟩⟩
    rw [addAssignLoop_getD, if_pos ⟨Nat.zero_le i, hi⟩]

/-- Witness for C1: a matched-size call succeeds and adds elementwise, and a
mismatched-size call fails. -/
theorem elementwise_plusAssign_spec_witness :
    (plusAssignSeq [1, 2] [10, 20]).1 = none
    ∧ (plusAssignSeq [1, 2] [10, 20]).2.getD 0 0 = 1 + 10
    ∧ (plusAssignSeq [3] [1, 2]).1.isSome := by
  have h := elementwise_plusAssign_spec [1, 2] [10, 20]
  have h2 := elementwise_plusAssign_spec [3] [1, 2]
  refine ⟨(h.2.2 (by decide)).1, ?_, h2.1.mpr (by decide)⟩
  have h3 := (h.2.2 (by decide)).2.2 0 (by decide)
  rw [h3]; decide

/-- Claim C2.  For every `Slice` with data address `p`, size `n` and step `s`,
and every index `0 ≤ i < n`, `view[i]` reads and writes the element at
address `p + i*s`; concretely, a step-2 size-3 view over `[0,1,2,3,4,5]`
denotes the logical sequence `[0,2,4]` and `view[2] == 4`. -/
theorem slice_strided_indexing (mem : Int → Int) (s : Slice) (i : Int)
    (hi0 : 0 ≤ i) (hin : i < s.m_size) :
    (Slice.get mem s i = mem (s.m_data + i * s.m_step))
    ∧ (∀ v, Slice.put mem s i v (s.m_data + i * s.m_step) = v)
    ∧ (Slice.toList (memOfList [0, 1, 2, 3, 4, 5]) ⟨0, 3, 2⟩ = [0, 2, 4]
       ∧ Slice.get (memOfList [0, 1, 2, 3, 4, 5]) ⟨0, 3, 2⟩ 2 = 4) := by
  refine ⟨rfl, fun v => ?_, by decide, by decide⟩
  simp [Slice.put, memUpd]

/-- Witness for C2 at index 2 of a step-2, size-3 view. -/
theorem slice_strided_indexing_witness :
    ((0:Int) ≤ 2 ∧ (2:Int) < (3:Int))
    ∧ Slice.get (memOfList [0, 1, 2, 3, 4, 5]) ⟨0, 3, 2⟩ 2
        = memOfList [0, 1, 2, 3, 4, 5] (0 + 2 * 2) := by
  exact ⟨⟨by decide, by decide⟩,
    (slice_strided_indexing (memOfList [0, 1, 2, 3, 4, 5]) ⟨0, 3, 2⟩ 2
      (by decide) (by decide)).1⟩

/-- Claim C3.  `head(m)` returns the sub-view of the first `clamp(m, 0, n)`
elements and `tail(m)` the sub-view of the last `clamp(m, 0, n)` elements of
an `n`-element `Span`; neither fails, and neither produces an out-of-range
view; `head(10)` on a 5-element view returns all 5 elements. -/
theorem span_head_tail_clamp (mem : Int → Int) (s : Span) (m : Int)
    (hn : 0 ≤ s.size_) :
    ((s.head m).size_ = max 0 (min m s.size_)
      ∧ (s.tail m).size_ = max 0 (min m s.size_))
    ∧ (∀ j : Int, 0 ≤ j → j < (s.head m).size_ →
        Span.get mem (s.head m) j = Span.get mem s j)
    ∧ (∀ j : Int, 0 ≤ j → j < (s.tail m).size_ →
        Span.get mem (s.tail m) j = Span.get mem s (s.size_ - (s.tail m).size_ + j))
    ∧ (0 ≤ (s.head m).size_ ∧ (s.head m).size_ ≤ s.size_
       ∧ (s.head m).data_ = s.data_
       ∧ 0 ≤ (s.tail m).size_ ∧ (s.tail m).size_ ≤ s.size_
       ∧ s.data_ ≤ (s.tail m).data_
       ∧ (s.tail m).data_ + (s.tail m).size_ = s.data_ + s.size_)
    ∧ (Span.toList (memOfList [10, 20, 30, 40, 50]) (Span.head ⟨0, 5⟩ 2) = [10, 20]
       ∧ Span.toList (memOfList [10, 20, 30, 40, 50]) (Span.tail ⟨0, 5⟩ 2) = [40, 50]
       ∧ Span.toList (memOfList [10, 20, 30, 40, 50]) (Span.head ⟨0, 5⟩ 10)
           = [10, 20, 30, 40, 50]) := by
  have htrim : s.trim_length m = max 0 (min m s.size_) := by
    unfold Span.trim_length
    rcases lt_or_le m 0 with h | h
    · rw [if_pos h]; omega
    · rw [if_neg (by omega)]
      rcases lt_or_le m s.size_ with h2 | h2
      · rw [if_pos h2]; omega
      · rw [if_neg (by omega)]; omega
  have htl : 0 ≤ s.trim_length m ∧ s.trim_length m ≤ s.size_ := by
    rw [htrim]; omega
  refine ⟨⟨htrim, htrim⟩, fun j _ _ => rfl, fun j hj0 hj => ?_,
    ⟨?_, ?_, rfl, ?_, ?_, ?_, ?_⟩, by decide, by decide, by decide⟩
  · show mem ((s.tail m).data_ + j) = mem (s.data_ + (s.size_ - (s.tail m).size_ + j))
    have : (s.tail m).data_ = s.data_ + s.size_ - s.trim_length m := rfl
    have hsz : (s.tail m).size_ = s.trim_length m := rfl
    rw [this, hsz]
    congr 1
    ring
  · show 0 ≤ s.trim_length m
    exact htl.1
  · exact htl.2
  · exact htl.1
  · exact htl.2
  · show s.data_ ≤ s.data_ + s.size_ - s.trim_length m
    omega
  · show s.data_ + s.size_ - s.trim_length m + s.trim_length m = s.data_ + s.size_
    ring

/-- Witness for C3 on a 5-element view with an over-large request. -/
theorem span_head_tail_clamp_witness :
    (0 : Int) ≤ (5 : Int)
    ∧ (Span.mk 0 5).head 10 = ⟨0, 5⟩
    ∧ ((Span.mk 0 5).head 10).size_ = max 0 (min 10 5) := by
  refine ⟨by decide, by decide,
    (span_head_tail_clamp (memOfList [10, 20, 30, 40, 50]) ⟨0, 5⟩ 10 (by decide)).1.1⟩

/-- Claim C4.  The checked `front()`/`back()` fail (with the out-of-range
`DOMAIN_ERROR` condition) exactly when the view is empty; the checked
`pop_front(Count)`/`pop_back(Count)` fail exactly when `Count` exceeds the
current size; this failure kind is distinct from the general invalid-state
(`LOGIC_ERROR`) kind; the `unsafe_` variants perform no check and the checked
operations otherwise return exactly their result. -/
theorem span_checked_accessors (mem : Int → Int) (s : Span) (C : Int)
    (hn : 0 ≤ s.size_) :
    ((s.front mem = Except.error MzError.domainError ↔ s.size_ = 0)
      ∧ (s.back mem = Except.error MzError.domainError ↔ s.size_ = 0))
    ∧ ((s.pop_front C = Except.error MzError.domainError ↔ s.size_ < C)
      ∧ (s.pop_back C = Except.error MzError.domainError ↔ s.size_ < C))
    ∧ ((s.size_ ≠ 0 → s.front mem = Except.ok (s.unsafe_front mem)
          ∧ s.back mem = Except.ok (s.unsafe_back mem))
      ∧ (C ≤ s.size_ → s.pop_front C = Except.ok (s.unsafe_pop_front C)
          ∧ s.pop_back C = Except.ok (s.unsafe_pop_back C)))
    ∧ MzError.domainError ≠ MzError.logicError := by
  unfold Span.front Span.back Span.pop_front Span.pop_back
  refine ⟨⟨?_, ?_⟩, ⟨?_, ?_⟩, ⟨fun h => ?_, fun h => ?_⟩, by decide⟩
  · constructor
    · intro h; by_contra hne
      rw [if_neg (by omega)] at h
      exact Except.noConfusion h
    · intro h; rw [if_pos (by omega)]
  · constructor
    · intro h; by_contra hne
      rw [if_neg (by omega)] at h
      exact Except.noConfusion h
    · intro h; rw [if_pos (by omega)]
  · constructor
    · intro h; by_contra hne
      rw [if_neg (by omega)] at h
      exact Except.noConfusion h
    · intro h; rw [if_pos h]
  · constructor
    · intro h; by_contra hne
      rw [if_neg (by omega)] at h
      exact Except.noConfusion h
    · intro h; rw [if_pos h]
  · rw [if_neg (by omega), if_neg (by omega)]; exact ⟨rfl, rfl⟩
  · rw [if_neg (by omega), if_neg (by omega)]; exact ⟨rfl, rfl⟩

/-- Witness for C4: an empty view fails `front()`, a 3-element view fails
`pop_front(5)` and succeeds `pop_front(2)`. -/
theorem span_checked_accessors_witness :
    Span.front (memOfList [1, 2, 3]) ⟨0, 0⟩ = Except.error MzError.domainError
    ∧ Span.pop_front ⟨0, 3⟩ 5 = Except.error MzError.domainError
    ∧ Span.pop_front ⟨0, 3⟩ 2 = Except.ok (Span.unsafe_pop_front ⟨0, 3⟩ 2) := by
  have h1 := span_checked_accessors (memOfList [1, 2, 3]) ⟨0, 0⟩ 0 (by decide)
  have h2 := span_checked_accessors (memOfList [1, 2, 3]) ⟨0, 3⟩ 5 (by decide)
  have h3 := span_checked_accessors (memOfList [1, 2, 3]) ⟨0, 3⟩ 2 (by decide)
  exact ⟨h1.1.1.mpr (by decide), h2.2.1.1.mpr (by decide),
    (h3.2.2.1.2 (by decide)).1⟩

/-! ### The two-phase scan of `count_filter_front`

Throughout, `F` holds exactly on the length-`k` front run of the view:
`F` is true at offsets `0 ≤ i < k` and false at offsets `k ≤ i < size`. -/

/-- When the probe position has reached or passed the front-run boundary `k`,
the probe loop stops at once. -/
theorem scanStep_stop (mem : Int → Int) (F : Int → Bool) (base step : Int)
    (n k p : Int) (hkn : k ≤ n)
    (hF : ∀ i : Int, 0 ≤ i → i < n → (F (mem (base + i)) = true ↔ i < k))
    (hp0 : 0 ≤ p) (hpk : k ≤ p) :
    scanStep mem F base n step p = p := by
  rw [scanStep, dif_neg]
  intro hcon
  rcases hcon with ⟨⟨h1, h2⟩, h3⟩
  have := (hF p hp0 (by omega)).mp h2
  omega

/-- The probe loop started inside the front run lands in `[k, k + step)`:
at or past the boundary, less than one step past it. -/
theorem scanStep_boundary (mem : Int → Int) (F : Int → Bool) (base : Int)
    (n step k : Int) (hstep : 0 < step) (hk0 : 0 ≤ k) (hkn : k ≤ n)
    (hF : ∀ i : Int, 0 ≤ i → i < n → (F (mem (base + i)) = true ↔ i < k)) :
    ∀ m : Nat, ∀ p : Int, (k - p).toNat ≤ m → 0 ≤ p → p ≤ k →
      k ≤ scanStep mem F base n step p ∧ scanStep mem F base n step p - step < k := by
  intro m
  induction m with
  | zero =>
      intro p hm hp0 hpk
      rw [scanStep_stop mem F base step n k p hkn hF hp0 (by omega)]
      omega
  | succ m ih =>
      intro p hm hp0 hpk
      by_cases hlt : p < k
      · rw [scanStep, dif_pos ⟨⟨by omega, (hF p hp0 (by omega)).mpr hlt⟩, hstep⟩]
        by_cases h2 : p + step ≤ k
        · exact ih (p + step) (by omega) (by omega) h2
        · rw [scanStep_stop mem F base step n k (p + step) hkn hF (by omega) (by omega)]
          omega
      · rw [scanStep_stop mem F base step n k p hkn hF hp0 (by omega)]
        omega

/-- The confirm loop started at or before the boundary `k`, with its end
marker between `k` and the view size, stops exactly at `k`. -/
theorem scanOne_exact (mem : Int → Int) (F : Int → Bool) (base : Int)
    (n e k : Int) (hk0 : 0 ≤ k) (hke : k ≤ e) (hen : e ≤ n)
    (hF : ∀ i : Int, 0 ≤ i → i < n → (F (mem (base + i)) = true ↔ i < k)) :
    ∀ m : Nat, ∀ p : Int, (k - p).toNat ≤ m → 0 ≤ p → p ≤ k →
      scanOne mem F base e p = k := by
  intro m
  induction m with
  | zero =>
      intro p hm hp0 hpk
      have hpe : p = k := by omega
      subst hpe
      rw [scanOne, if_neg]
      intro hcon
      have := (hF p hp0 (by omega)).mp hcon.2
      omega
  | succ m ih =>
      intro p hm hp0 hpk
      by_cases hlt : p < k
      · rw [scanOne, if_pos ⟨by omega, (hF p hp0 (by omega)).mpr hlt⟩]
        exact ih (p + 1) (by omega) (by omega) (by omega)
      · have hpe : p = k := by omega
        subst hpe
        rw [scanOne, if_neg]
        intro hcon
        have := (hF p hp0 (by omega)).mp hcon.2
        omega

/-- Claim C5.  When the predicate `F` holds exactly on the first `k` elements
of the view and is false on every later element, `count_filter_front(F, step)`
returns exactly `k` for every step multiplier, and `pop_front_filter(F, step)`
consumes and returns exactly that `k`-element front run. -/
theorem span_count_filter_front_exact (mem : Int → Int) (F : Int → Bool) (s : Span)
    (StepSize k : Int)
    (hn : 0 ≤ s.size_) (hk0 : 0 ≤ k) (hkn : k ≤ s.size_)
    (hF : ∀ i : Int, 0 ≤ i → i < s.size_ → (F (mem (s.data_ + i)) = true ↔ i < k)) :
    Span.count_filter_front mem s F StepSize = k
    ∧ Span.pop_front_filter mem s F StepSize
        = (⟨s.data_ + k, s.size_ - k⟩, ⟨s.data_, k⟩) := by
  have hmain : Span.count_filter_front mem s F StepSize = k := by
    unfold Span.count_filter_front
    dsimp only
    by_cases hz : s.size_ = 0
    · have hk : k = 0 := by omega
      have hstep : clampStep StepSize s.size_ = 0 := by
        unfold clampStep
        dsimp only
        rw [hz]
        split <;> rename_i h1
        · rw [if_neg (by omega)]
        · rw [if_neg (by omega)]
      rw [hstep, hz]
      rw [scanStep_stop mem F s.data_ 0 0 k 0 (by omega)
        (by rw [hz] at hF; exact hF) le_rfl (by omega)]
      rw [if_neg (by omega)]
      dsimp only
      rw [scanOne, if_neg (by omega)]
      omega
    · have hpos : 0 < s.size_ := by omega
      have hstep1 : 1 ≤ clampStep StepSize s.size_ ∧ clampStep StepSize s.size_ ≤ s.size_ := by
        unfold clampStep
        dsimp only
        split <;> rename_i h1 <;> (split <;> rename_i h2) <;> omega
      set step := clampStep StepSize s.size_ with hstepdef
      have hb := scanStep_boundary mem F s.data_ s.size_ step k (by omega) hk0 hkn hF
        (k - 0).toNat 0 le_rfl le_rfl hk0
      set p0 := scanStep mem F s.data_ s.size_ step 0 with hp0def
      by_cases hcase : p0 < s.size_
      · rw [if_pos hcase]
        dsimp only
        have h2 : p0 + 1 - step ≤ k := by omega
        by_cases hneg : p0 + 1 - step < 0
        · rw [if_pos hneg]
          exact scanOne_exact mem F s.data_ s.size_ p0 k hk0 (by omega) (by omega) hF
            k.toNat 0 (by omega) le_rfl hk0
        · rw [if_neg hneg]
          exact scanOne_exact mem F s.data_ s.size_ p0 k hk0 (by omega) (by omega) hF
            (k - (p0 + 1 - step)).toNat (p0 + 1 - step) (by omega) (by omega) h2
      · rw [if_neg hcase]
        dsimp only
        have h2 : p0 - step ≤ k := by omega
        by_cases hneg : p0 - step < 0
        · rw [if_pos hneg]
          exact scanOne_exact mem F s.data_ s.size_ s.size_ k hk0 (by omega) le_rfl hF
            k.toNat 0 (by omega) le_rfl hk0
        · rw [if_neg hneg]
          exact scanOne_exact mem F s.data_ s.size_ s.size_ k hk0 (by omega) le_rfl hF
            (k - (p0 - step)).toNat (p0 - step) (by omega) (by omega) h2
  refine ⟨hmain, ?_⟩
  unfold Span.pop_front_filter Span.unsafe_pop_front
  rw [hmain]

/-- Witness for C5: the predicate `x < 4` holds exactly on the 2-element
front run of `[1, 1, 5, 7]`; probing with step 2 counts exactly 2. -/
theorem span_count_filter_front_exact_witness :
    Span.count_filter_front (memOfList [1, 1, 5, 7]) ⟨0, 4⟩ (fun x => x < 4) 2 = 2
    ∧ Span.pop_front_filter (memOfList [1, 1, 5, 7]) ⟨0, 4⟩ (fun x => x < 4) 2
        = (⟨0 + 2, 4 - 2⟩, ⟨0, 2⟩) := by
  exact span_count_filter_front_exact (memOfList [1, 1, 5, 7]) (fun x => x < 4) ⟨0, 4⟩
    2 2 (by decide) (by decide) (by decide)
    (by
      intro i h1 h2
      have h2a : i < 4 := h2
      have hi : i = 0 ∨ i = 1 ∨ i = 2 ∨ i = 3 := by omega
      rcases hi with rfl | rfl | rfl | rfl <;> decide)

/-! ### Equivalence of the two assignment paths -/

/-- The ascending element-by-element loop computes exactly the bulk-copy
snapshot whenever the two ranges do not overlap. -/
theorem copyLoop_eq_memBulkCopy (mem : Int → Int) (dst src : Int) (n : Nat)
    (hdisj : dst + n ≤ src ∨ src + n ≤ dst) :
    copyLoop mem dst src n = memBulkCopy mem dst src n := by
  induction n with
  | zero =>
      funext a
      show mem a = if dst ≤ a ∧ a < dst + ((0:Nat):Int) then mem (src + (a - dst)) else mem a
      rw [if_neg (by push_cast; omega)]
  | succ n ih =>
      have hdisj' : dst + n ≤ src ∨ src + n ≤ dst := by push_cast at hdisj ⊢; omega
      rw [copyLoop, ih hdisj']
      funext a
      unfold memUpd memBulkCopy
      push_cast at hdisj ⊢
      split_ifs <;>
        first
          | rfl
          | (exfalso; omega)
          | (congr 1; omega)

/-- Claim C6.  For equal-size views of a trivially copyable element type over
non-overlapping storage, the `memcpy` fast path of `Span::operator=(Span)`
produces exactly the same final memory as the generic element-by-element
loop; the choice of path is not observable in the result (and on a size
mismatch both paths raise the same error without writing). -/
theorem span_assign_fastpath_equiv (mem : Int → Int) (L R : Span)
    (hn : 0 ≤ L.size_)
    (hdisj : L.data_ + L.size_ ≤ R.data_ ∨ R.data_ + R.size_ ≤ L.data_) :
    spanAssignBulk mem L R = spanAssignLoop mem L R := by
  unfold spanAssignBulk spanAssignLoop
  by_cases h : L.size_ ≠ R.size_
  · rw [if_pos h, if_pos h]
  · push_neg at h
    rw [if_neg (by omega), if_neg (by omega)]
    rw [copyLoop_eq_memBulkCopy]
    have ht : (L.size_.toNat : Int) = L.size_ := Int.toNat_of_nonneg hn
    rcases hdisj with hd | hd
    · left; omega
    · right; omega

/-- Witness for C6: two disjoint 2-element views. -/
theorem span_assign_fastpath_equiv_witness :
    ((0:Int) ≤ 2 ∧ ((0:Int) + 2 ≤ 10 ∨ (10:Int) + 2 ≤ 0))
    ∧ spanAssignBulk (memOfList [1, 2]) ⟨0, 2⟩ ⟨10, 2⟩
        = spanAssignLoop (memOfList [1, 2]) ⟨0, 2⟩ ⟨10, 2⟩ :=
  ⟨⟨by decide, Or.inl (by decide)⟩,
    span_assign_fastpath_equiv (memOfList [1, 2]) ⟨0, 2⟩ ⟨10, 2⟩ (by decide)
      (Or.inl (by decide))⟩

/-! ### `lower_bound` / `find` on a sorted view -/

/-- Characterization of the `lower_bound` scan: it never moves backwards,
stays within the range, passes only elements `< v`, and stops at the first
element not `< v`. -/
theorem lbScan_spec (mem : Int → Int) (v base e : Int) :
    ∀ m : Nat, ∀ p : Int, (e - p).toNat ≤ m →
      p ≤ lbScan mem v base e p
      ∧ (p ≤ e → lbScan mem v base e p ≤ e)
      ∧ (∀ i : Int, p ≤ i → i < lbScan mem v base e p → mem (base + i) < v)
      ∧ (lbScan mem v base e p < e → ¬ mem (base + lbScan mem v base e p) < v) := by
  intro m
  induction m with
  | zero =>
      intro p hm
      rw [lbScan, if_neg (fun hcon => by omega)]
      exact ⟨le_rfl, fun h => h, fun i h1 h2 => absurd h2 (by omega),
        fun h => absurd h (by omega)⟩
  | succ m ih =>
      intro p hm
      by_cases hg : p < e ∧ mem (base + p) < v
      · rw [lbScan, if_pos hg]
        obtain ⟨ih1, ih2, ih3, ih4⟩ := ih (p + 1) (by omega)
        refine ⟨by omega, fun _ => ih2 (by omega), fun i h1 h2 => ?_, ih4⟩
        by_cases hip : i = p
        · subst hip; exact hg.2
        · exact ih3 i (by omega) h2
      · rw [lbScan, if_neg hg]
        exact ⟨le_rfl, fun h => h, fun i h1 h2 => absurd h2 (by omega),
          fun h => fun hv => hg ⟨h, hv⟩⟩

/-- Claim C7.  On a view sorted ascending, `find(v)` returns the index of the
first element equal to `v` when `v` is present, and the sentinel `-1`
(negative, hence distinguishable from every valid index) when it is not. -/
theorem span_find_sorted (mem : Int → Int) (s : Span) (v : Int)
    (hn : 0 ≤ s.size_)
    (hsorted : ∀ i j : Int, 0 ≤ i → i ≤ j → j < s.size_ →
      mem (s.data_ + i) ≤ mem (s.data_ + j)) :
    ((∃ i : Int, 0 ≤ i ∧ i < s.size_ ∧ mem (s.data_ + i) = v) →
      (0 ≤ Span.find mem s v ∧ Span.find mem s v < s.size_
        ∧ mem (s.data_ + Span.find mem s v) = v
        ∧ ∀ j : Int, 0 ≤ j → j < Span.find mem s v → mem (s.data_ + j) ≠ v))
    ∧ ((¬ ∃ i : Int, 0 ≤ i ∧ i < s.size_ ∧ mem (s.data_ + i) = v) →
      Span.find mem s v = -1)
    ∧ (Span.find mem s v = -1 ∨ 0 ≤ Span.find mem s v) := by
  obtain ⟨h1, h2, h3, h4⟩ := lbScan_spec mem v s.data_ s.size_ (s.size_ - 0).toNat 0 le_rfl
  have hre : lbScan mem v s.data_ s.size_ 0 ≤ s.size_ := h2 hn
  refine ⟨?_, ?_, ?_⟩
  · rintro ⟨i0, hi0, hi1, hi2⟩
    have hri : lbScan mem v s.data_ s.size_ 0 ≤ i0 := by
      by_contra hcon
      have := h3 i0 hi0 (by omega)
      omega
    have hrlt : lbScan mem v s.data_ s.size_ 0 < s.size_ := by omega
    have hgev := h4 hrlt
    have hlev : mem (s.data_ + lbScan mem v s.data_ s.size_ 0) ≤ v :=
      hi2 ▸ hsorted (lbScan mem v s.data_ s.size_ 0) i0 h1 hri hi1
    have heq : mem (s.data_ + lbScan mem v s.data_ s.size_ 0) = v := by omega
    have hfind : Span.find mem s v = lbScan mem v s.data_ s.size_ 0 := by
      unfold Span.find Span.lower_bound
      dsimp only
      rw [if_pos ⟨by omega, heq.symm⟩]
    rw [hfind]
    exact ⟨h1, hrlt, heq, fun j hj0 hjr => by have := h3 j hj0 hjr; omega⟩
  · intro hnone
    unfold Span.find Span.lower_bound
    dsimp only
    by_cases hrn : lbScan mem v s.data_ s.size_ 0 = s.size_
    · rw [if_neg (fun hc => hc.1 hrn)]
    · rw [if_neg ?_]
      intro hc
      exact hnone ⟨lbScan mem v s.data_ s.size_ 0, h1, by omega, hc.2.symm⟩
  · unfold Span.find Span.lower_bound
    dsimp only
    split
    · exact Or.inr h1
    · exact Or.inl rfl

/-- Witness for C7: on the sorted view `[2, 4, 4, 7]`, `find(4)` returns a
valid index holding `4`, and `find(5)` returns `-1`. -/
theorem span_find_sorted_witness :
    (0 ≤ Span.find (memOfList [2, 4, 4, 7]) ⟨0, 4⟩ 4
      ∧ Span.find (memOfList [2, 4, 4, 7]) ⟨0, 4⟩ 4 < (Span.mk 0 4).size_
      ∧ memOfList [2, 4, 4, 7] ((Span.mk 0 4).data_
          + Span.find (memOfList [2, 4, 4, 7]) ⟨0, 4⟩ 4) = 4)
    ∧ Span.find (memOfList [2, 4, 4, 7]) ⟨0, 4⟩ 5 = -1 := by
  have hsorted : ∀ i j : Int, 0 ≤ i → i ≤ j → j < (Span.mk 0 4).size_ →
      memOfList [2, 4, 4, 7] ((Span.mk 0 4).data_ + i)
        ≤ memOfList [2, 4, 4, 7] ((Span.mk 0 4).data_ + j) := by
    intro i j h1 h2 h3
    have h3a : j < 4 := h3
    have hi : i = 0 ∨ i = 1 ∨ i = 2 ∨ i = 3 := by omega
    have hj : j = 0 ∨ j = 1 ∨ j = 2 ∨ j = 3 := by omega
    rcases hi with rfl | rfl | rfl | rfl <;> rcases hj with rfl | rfl | rfl | rfl <;>
      revert h2 <;> decide
  have hp := span_find_sorted (memOfList [2, 4, 4, 7]) ⟨0, 4⟩ 4 (by decide) hsorted
  have ha := span_find_sorted (memOfList [2, 4, 4, 7]) ⟨0, 4⟩ 5 (by decide) hsorted
  obtain ⟨c1, c2, c3, _⟩ := hp.1 ⟨1, by decide, by decide, by decide⟩
  exact ⟨⟨c1, c2, c3⟩, ha.2.1 (by
    rintro ⟨i, hi0, hi1, hi2⟩
    have hi1a : i < 4 := hi1
    have hi : i = 0 ∨ i = 1 ∨ i = 2 ∨ i = 3 := by omega
    rcases hi with rfl | rfl | rfl | rfl <;> revert hi2 <;> decide)⟩

/-! ### Label round-trip -/

theorem toLEBytes_length (k w : Nat) : (toLEBytes k w).length = k := by
  induction k generalizing w with
  | zero => rfl
  | succ k ih => simp [toLEBytes, ih]

theorem fromLEBytes_toLEBytes (k w : Nat) :
    fromLEBytes (toLEBytes k w) = w % 256 ^ k := by
  induction k generalizing w with
  | zero => simp [toLEBytes, fromLEBytes, Nat.mod_one]
  | succ k ih =>
      rw [toLEBytes, fromLEBytes, ih]
      rw [pow_succ, mul_comm (256 ^ k) 256, Nat.mod_mul]

/-- Claim C9.  For a nonzero 64-bit tag `t`, `write_label(t)` followed by
`read_label(t)` at the written position reports no mismatch; `read_label(t')`
with any other nonzero tag reports a mismatch; with tag 0, `write_label`
writes no bytes and `read_label` consumes no bytes and reports no mismatch. -/
theorem stream_label_roundtrip (data : List Nat) (t t' : Nat)
    (ht : t < 2 ^ 64) (ht0 : t ≠ 0) (ht' : t' < 2 ^ 64) (ht'0 : t' ≠ 0)
    (hne : t' ≠ t) :
    (Stream.read_label ⟨Stream.write_label data t, data.length⟩ t).1 = false
    ∧ (Stream.read_label ⟨Stream.write_label data t, data.length⟩ t').1 = true
    ∧ Stream.write_label data 0 = data
    ∧ (∀ st : Stream, Stream.read_label st 0 = (false, st)) := by
  have hw : Stream.write_label data t = data ++ toLEBytes 8 t := by
    unfold Stream.write_label; rw [if_pos ht0]
  have hx : fromLEBytes (((data ++ toLEBytes 8 t).drop data.length).take 8) = t := by
    rw [List.drop_left]
    rw [List.take_of_length_le (le_of_eq (toLEBytes_length 8 t))]
    rw [fromLEBytes_toLEBytes]
    have h8 : (256 : Nat) ^ 8 = 2 ^ 64 := by norm_num
    rw [h8]
    exact Nat.mod_eq_of_lt ht
  refine ⟨?_, ?_, ?_, ?_⟩
  · unfold Stream.read_label
    rw [if_pos ht0]
    dsimp only
    rw [hw, hx]
    exact bne_self_eq_false t
  · unfold Stream.read_label
    rw [if_pos ht'0]
    dsimp only
    rw [hw, hx]
    exact bne_iff_ne.mpr (Ne.symm hne)
  · unfold Stream.write_label
    rw [if_neg (by omega)]
  · intro st
    unfold Stream.read_label
    rw [if_neg (by omega)]

/-- Witness for C9 with tags 7 and 9 over a 1-byte stream. -/
theorem stream_label_roundtrip_witness :
    (Stream.read_label ⟨Stream.write_label [5] 7, 1⟩ 7).1 = false
    ∧ (Stream.read_label ⟨Stream.write_label [5] 7, 1⟩ 9).1 = true
    ∧ Stream.write_label [5] 0 = [5] := by
  have h := stream_label_roundtrip [5] 7 9 (by norm_num) (by norm_num)
    (by norm_num) (by norm_num) (by norm_num)
  exact ⟨h.1, h.2.1, h.2.2.1⟩

/-! ### The `Stack::pop` loop -/

theorem popLoop_succ (data : List (Option Nat)) (n : Nat) :
    popLoop data (n + 1) =
      if (data.getD n none).isSome then (data.set n none, n, data.getD n none)
      else popLoop (data.set n none) n := rfl

theorem getD_set_opt (l : List (Option Nat)) (i j : Nat) (a : Option Nat) :
    (l.set i a).getD j none = if i = j ∧ i < l.length then a else l.getD j none := by
  rw [List.getD_eq_getElem?_getD, List.getD_eq_getElem?_getD, List.getElem?_set]
  split <;> rename_i h
  · subst h
    split <;> rename_i h2
    · simp [h2]
    · rw [List.getElem?_eq_none (by omega)]
      simp [h2]
  · simp [h]

theorem getD_none_of_ge (l : List (Option Nat)) (j : Nat) (h : l.length ≤ j) :
    l.getD j none = none := by
  rw [List.getD_eq_getElem?_getD, List.getElem?_eq_none h]
  rfl

/-- Full characterization of the `pop()` loop: started above the topmost
non-null slot `j` it nulls everything it visits, stops at `j`, and returns
that slot's address; on an all-null range it nulls everything and returns
null with size 0. -/
theorem popLoop_spec (size : Nat) : ∀ data : List (Option Nat),
    (∀ j a, j < size → data.getD j none = some a →
      (∀ i, j < i → i < size → data.getD i none = none) →
      (popLoop data size).2.2 = some a
      ∧ (popLoop data size).2.1 = j
      ∧ ∀ i, (popLoop data size).1.getD i none
          = if j ≤ i ∧ i < size then none else data.getD i none)
    ∧ ((∀ i, i < size → data.getD i none = none) →
      (popLoop data size).2.2 = none
      ∧ (popLoop data size).2.1 = 0
      ∧ ∀ i, (popLoop data size).1.getD i none
          = if i < size then none else data.getD i none) := by
  induction size with
  | zero =>
      intro data
      constructor
      · intro j a hj
        omega
      · intro hall
        refine ⟨rfl, rfl, fun i => ?_⟩
        rw [if_neg (by omega)]
        rfl
  | succ n ih =>
      intro data
      constructor
      · intro j a hj ha hup
        by_cases hjn : j = n
        · subst hjn
          have hlen : j < data.length := by
            by_contra hc
            rw [getD_none_of_ge data j (by omega)] at ha
            exact Option.noConfusion ha
          rw [popLoop_succ, if_pos (show (data.getD j none).isSome = true by rw [ha]; rfl)]
          refine ⟨ha, rfl, fun i => ?_⟩
          show (data.set j none).getD i none = _
          rw [getD_set_opt]
          by_cases hij : j = i
          · subst hij
            rw [if_pos ⟨rfl, hlen⟩, if_pos (by omega)]
          · rw [if_neg (by intro hc; exact hij hc.1), if_neg (by omega)]
        · have hnn : data.getD n none = none := hup n (by omega) (by omega)
          rw [popLoop_succ,
            if_neg (show ¬((data.getD n none).isSome = true) by rw [hnn]; decide)]
          have hlen2 : ∀ i, (data.set n none).getD i none
              = if n = i ∧ n < data.length then none else data.getD i none :=
            fun i => getD_set_opt data n i none
          obtain ⟨r1, r2, r3⟩ := (ih (data.set n none)).1 j a (by omega)
            (by rw [hlen2]; rw [if_neg (by intro hc; omega)]; exact ha)
            (by
              intro i h1 h2
              rw [hlen2]
              by_cases hcn : n = i ∧ n < data.length
              · rw [if_pos hcn]
              · rw [if_neg hcn]; exact hup i h1 (by omega))
          refine ⟨r1, r2, fun i => ?_⟩
          rw [r3 i, hlen2 i]
          split_ifs <;>
            first
              | rfl
              | omega
              | (exact getD_none_of_ge data i (by omega))
      · intro hall
        have hnn : data.getD n none = none := hall n (by omega)
        rw [popLoop_succ,
          if_neg (show ¬((data.getD n none).isSome = true) by rw [hnn]; decide)]
        have hlen2 : ∀ i, (data.set n none).getD i none
            = if n = i ∧ n < data.length then none else data.getD i none :=
          fun i => getD_set_opt data n i none
        obtain ⟨r1, r2, r3⟩ := (ih (data.set n none)).2
          (by
            intro i h1
            rw [hlen2]
            by_cases hcn : n = i ∧ n < data.length
            · rw [if_pos hcn]
            · rw [if_neg hcn]; exact hall i (by omega))
        refine ⟨r1, r2, fun i => ?_⟩
        rw [r3 i, hlen2 i]
        split_ifs <;>
          first
            | rfl
            | omega
            | (exact getD_none_of_ge data i (by omega))

theorem popLoop_nil (size : Nat) : popLoop [] size = ([], 0, none) := by
  induction size with
  | zero => rfl
  | succ n ih =>
      have hnil : (([] : List (Option Nat)).getD n none) = none := by
        rw [List.getD_eq_getElem?_getD, List.getElem?_nil]
        rfl
      rw [popLoop_succ, hnil,
        if_neg (show ¬((none : Option Nat).isSome = true) by decide)]
      show popLoop ([].set n none) n = ([], 0, none)
      rw [show ([] : List (Option Nat)).set n none = [] from by cases n <;> rfl]
      exact ih

theorem popLoop_length (size : Nat) : ∀ data : List (Option Nat),
    (popLoop data size).1.length = data.length := by
  induction size with
  | zero => intro data; rfl
  | succ n ih =>
      intro data
      rw [popLoop_succ]
      split
      · exact List.length_set data n none
      · rw [ih (data.set n none), List.length_set]

theorem popLoop_size_le (size : Nat) : ∀ data : List (Option Nat),
    (popLoop data size).2.1 ≤ size := by
  induction size with
  | zero => intro data; exact le_rfl
  | succ n ih =>
      intro data
      rw [popLoop_succ]
      split
      · exact Nat.le_succ n
      · exact le_trans (ih (data.set n none)) (Nat.le_succ n)

theorem stackSlots_pop (s : Stack) :
    stackSlots (Stack.pop s).1 = (popLoop (stackSlots s) s.m_size).1 := by
  cases hd : s.m_data with
  | none =>
      have h1 : stackSlots s = [] := by unfold stackSlots; rw [hd, Option.getD_none]
      have h2 : (Stack.pop s).1.m_data = none := by
        unfold Stack.pop
        dsimp only
        rw [hd]
        rfl
      have h3 : stackSlots (Stack.pop s).1 = [] := by
        unfold stackSlots; rw [h2, Option.getD_none]
      rw [h1, h3, popLoop_nil]
  | some l =>
      have h2 : (Stack.pop s).1.m_data = some (popLoop (stackSlots s) s.m_size).1 := by
        unfold Stack.pop
        dsimp only
        rw [hd]
        rfl
      unfold stackSlots
      rw [h2, Option.getD_some]
      rfl

/-- Claim C8.  `Stack::pop()` scans backward from the top, nulling each visited
slot and skipping slots already null, returns the topmost non-null address
with the logical size decreased to that slot's index, and returns null with
size 0 when every slot below the top is null — nulled interior slots are
skipped, never treated as corruption. -/
theorem stack_pop_skips_nulls (s : Stack) :
    (∀ j a, j < s.m_size → (stackSlots s).getD j none = some a →
      (∀ i, j < i → i < s.m_size → (stackSlots s).getD i none = none) →
      (Stack.pop s).2 = some a
      ∧ (Stack.pop s).1.m_size = j
      ∧ ∀ i, (stackSlots (Stack.pop s).1).getD i none
          = if j ≤ i ∧ i < s.m_size then none else (stackSlots s).getD i none)
    ∧ ((∀ i, i < s.m_size → (stackSlots s).getD i none = none) →
      (Stack.pop s).2 = none
      ∧ (Stack.pop s).1.m_size = 0
      ∧ ∀ i, (stackSlots (Stack.pop s).1).getD i none
          = if i < s.m_size then none else (stackSlots s).getD i none) := by
  have hres : (Stack.pop s).2 = (popLoop (stackSlots s) s.m_size).2.2 := rfl
  have hsz : (Stack.pop s).1.m_size = (popLoop (stackSlots s) s.m_size).2.1 := rfl
  have hsl := stackSlots_pop s
  obtain ⟨b1, b2⟩ := popLoop_spec s.m_size (stackSlots s)
  constructor
  · intro j a hj ha hup
    obtain ⟨r1, r2, r3⟩ := b1 j a hj ha hup
    exact ⟨hres ▸ r1, hsz ▸ r2, fun i => by rw [hsl]; exact r3 i⟩
  · intro hall
    obtain ⟨r1, r2, r3⟩ := b2 hall
    exact ⟨hres ▸ r1, hsz ▸ r2, fun i => by rw [hsl]; exact r3 i⟩

/-- Witness for C8: popping `[some 10, none, some 30, none]` (top at index 3)
skips the nulled top slot and returns address 30 with size reduced to 2. -/
theorem stack_pop_skips_nulls_witness :
    (Stack.pop ⟨some [some 10, none, some 30, none], 4, 4⟩).2 = some 30
    ∧ (Stack.pop ⟨some [some 10, none, some 30, none], 4, 4⟩).1.m_size = 2 := by
  have h := (stack_pop_skips_nulls ⟨some [some 10, none, some 30, none], 4, 4⟩).1
    2 30 (by decide) (by decide)
    (by
      intro i h1 h2
      have h2a : i < 4 := h2
      have hi : i = 3 := by omega
      subst hi
      decide)
  exact ⟨h.1, h.2.1⟩

/-! ### The reachable-state invariant of `Stack` -/

theorem uniqueConsec_length_le (l : List (Option Nat)) :
    (uniqueConsec l).length ≤ l.length := by
  induction l using uniqueConsec.induct with
  | case1 => rw [uniqueConsec]
  | case2 a => rw [uniqueConsec]
  | case3 b t ih =>
      rw [uniqueConsec, if_pos rfl]
      simp only [List.length_cons] at ih ⊢
      omega
  | case4 a b t hab ih =>
      rw [uniqueConsec, if_neg hab]
      simp only [List.length_cons] at ih ⊢
      omega

theorem map_data_some (g : List (Option Nat) → List (Option Nat))
    (o : Option (List (Option Nat))) (l' : List (Option Nat))
    (h : o.map g = some l') : ∃ l, o = some l ∧ l' = g l := by
  cases o with
  | none => exact Option.noConfusion h
  | some x => exact ⟨x, rfl, (Option.some.inj h).symm⟩

theorem map_data_none (g : List (Option Nat) → List (Option Nat))
    (o : Option (List (Option Nat))) (h : o.map g = none) : o = none :=
  Option.map_eq_none'.mp h

/-- The strengthened reachable-state invariant: the size never exceeds the
capacity, an allocated slot array has exactly `m_cap` slots, and a null
`m_data` only occurs at capacity 0. -/
theorem stack_reachable_wf (s : Stack) (h : StackReachable s) :
    s.m_size ≤ s.m_cap
    ∧ (∀ l, s.m_data = some l → l.length = s.m_cap)
    ∧ (s.m_data = none → s.m_cap = 0) := by
  induction h with
  | mk_empty => exact ⟨le_rfl, fun l hl => Option.noConfusion hl, fun _ => rfl⟩
  | mk_cap c junk hj =>
      exact ⟨Nat.zero_le c, fun l hl => (Option.some.inj hl) ▸ hj,
        fun hn => Option.noConfusion hn⟩
  | push s a junk h hj ih =>
      obtain ⟨ih1, ih2, ih3⟩ := ih
      have hslots : (stackSlots s).length = s.m_cap := by
        unfold stackSlots
        cases hd : s.m_data with
        | none => rw [ih3 hd]; rfl
        | some l => exact ih2 l hd
      unfold Stack.push
      dsimp only
      by_cases hsz : s.m_size = s.m_cap
      · rw [if_pos hsz]
        unfold Stack.resize_in_place stackSlots
        dsimp only
        refine ⟨by omega, ?_, fun hn => Option.noConfusion hn⟩
        intro l hl
        have hx := Option.some.inj hl
        subst hx
        have hslots2 : (s.m_data.getD []).length = s.m_cap := hslots
        rw [List.length_set, Option.getD_some, List.length_append, List.length_take]
        omega
      · rw [if_neg hsz]
        refine ⟨by omega, ?_, fun hn => Option.noConfusion hn⟩
        intro l hl
        have hx := Option.some.inj hl
        subst hx
        rw [List.length_set]
        exact hslots
  | pop s h ih =>
      obtain ⟨ih1, ih2, ih3⟩ := ih
      unfold Stack.pop
      dsimp only
      refine ⟨le_trans (popLoop_size_le s.m_size (stackSlots s)) ih1, ?_, ?_⟩
      · intro l hl
        obtain ⟨l0, hd, rfl⟩ := map_data_some _ _ _ hl
        have hsl : stackSlots s = l0 := by unfold stackSlots; rw [hd, Option.getD_some]
        show (popLoop (stackSlots s) s.m_size).1.length = s.m_cap
        rw [popLoop_length s.m_size (stackSlots s), hsl]
        exact ih2 l0 hd
      · intro hn
        exact ih3 (map_data_none _ _ hn)
  | popAt s i h ih =>
      obtain ⟨ih1, ih2, ih3⟩ := ih
      unfold Stack.popAt
      by_cases hi : i < s.m_size
      · rw [if_pos hi]
        dsimp only
        refine ⟨ih1, ?_, ?_⟩
        · intro l hl
          obtain ⟨l0, hd, rfl⟩ := map_data_some _ _ _ hl
          show (l0.set i none).length = s.m_cap
          rw [List.length_set]
          exact ih2 l0 hd
        · intro hn
          exact ih3 (map_data_none _ _ hn)
      · rw [if_neg hi]
        exact ⟨ih1, ih2, ih3⟩
  | clear s h ih =>
      obtain ⟨ih1, ih2, ih3⟩ := ih
      unfold Stack.clear
      refine ⟨Nat.zero_le _, ?_, ?_⟩
      · intro l hl
        obtain ⟨l0, hd, rfl⟩ := map_data_some _ _ _ hl
        show (List.replicate s.m_size (none : Option Nat) ++ l0.drop s.m_size).length
            = s.m_cap
        rw [List.length_append, List.length_replicate, List.length_drop]
        have := ih2 l0 hd
        omega
      · intro hn
        exact ih3 (map_data_none _ _ hn)
  | sort s h ih =>
      obtain ⟨ih1, ih2, ih3⟩ := ih
      unfold Stack.sort
      refine ⟨ih1, ?_, ?_⟩
      · intro l hl
        obtain ⟨l0, hd, rfl⟩ := map_data_some _ _ _ hl
        show (((l0.take s.m_size).mergeSort (fun x y => ptrVal x ≤ ptrVal y))
            ++ l0.drop s.m_size).length = s.m_cap
        rw [List.length_append, List.length_mergeSort, List.length_take,
          List.length_drop]
        have := ih2 l0 hd
        omega
      · intro hn
        exact ih3 (map_data_none _ _ hn)
  | unique s h ih =>
      obtain ⟨ih1, ih2, ih3⟩ := ih
      unfold Stack.unique
      dsimp only
      have hkept : (uniqueConsec ((stackSlots s).take s.m_size)).length ≤ s.m_size := by
        refine le_trans (uniqueConsec_length_le _) ?_
        rw [List.length_take]
        omega
      refine ⟨le_trans hkept ih1, ?_, ?_⟩
      · intro l hl
        obtain ⟨l0, hd, rfl⟩ := map_data_some _ _ _ hl
        have hsl : stackSlots s = l0 := by unfold stackSlots; rw [hd, Option.getD_some]
        show (uniqueConsec ((stackSlots s).take s.m_size)
            ++ List.replicate
                (s.m_size - (uniqueConsec ((stackSlots s).take s.m_size)).length)
                (none : Option Nat)
            ++ l0.drop s.m_size).length = s.m_cap
        rw [List.length_append, List.length_append, List.length_replicate,
          List.length_drop]
        have hl0 := ih2 l0 hd
        rw [hsl] at hkept
        rw [hsl]
        omega
      · intro hn
        exact ih3 (map_data_none _ _ hn)

/-- Claim C10.  Every `Stack` state reachable from a default- or
capacity-constructed stack by `push`, `pop`, `pop(index)`, `clear`, `sort`
and `unique` satisfies `0 <= size() <= capacity()`, and the slot array
pointer is non-null whenever `capacity() > 0`. -/
theorem stack_reachable_invariant (s : Stack) (h : StackReachable s) :
    (0 ≤ s.m_size ∧ s.m_size ≤ s.m_cap)
    ∧ (0 < s.m_cap → s.m_data.isSome) := by
  obtain ⟨h1, _, h3⟩ := stack_reachable_wf s h
  refine ⟨⟨Nat.zero_le _, h1⟩, fun hc => ?_⟩
  cases hd : s.m_data with
  | none => exact absurd (h3 hd) (by omega)
  | some l => rfl

/-- Witness for C10: the state reached by pushing one address onto a
default-constructed stack. -/
theorem stack_reachable_invariant_witness :
    ((0 ≤ (Stack.push Stack.mkEmpty 5 [none, none]).m_size
      ∧ (Stack.push Stack.mkEmpty 5 [none, none]).m_size
          ≤ (Stack.push Stack.mkEmpty 5 [none, none]).m_cap)
    ∧ (0 < (Stack.push Stack.mkEmpty 5 [none, none]).m_cap
        → (Stack.push Stack.mkEmpty 5 [none, none]).m_data.isSome)) :=
  stack_reachable_invariant (Stack.push Stack.mkEmpty 5 [none, none])
    (StackReachable.push Stack.mkEmpty 5 [none, none] StackReachable.mk_empty (by decide))

end Mzlib
